import Mathlib

/- Verification of the dalmatian status-aggregation and cost-accounting engine
   (dalmatian/fctools.py): the pricing table (get_vm_cost), the status reducer
   (WorkspaceManager.get_submission_status), the cost & timing aggregator
   (WorkspaceManager.get_stats), and the failure diagnostics view
   (WorkspaceManager.display_status), embedded shallowly over exact rational
   arithmetic.  Python floats are modeled as `Option ℚ` where `none` plays the
   role of NaN (the only NaN source in the embedded code is a missing 'end'
   timestamp, via np.NaN in workflow_time); ISO-8601 timestamp strings are
   modeled as the rational number of seconds that convert_time
   (datetime.timestamp of iso8601.parse_date) would produce for them.
   Exceptions (assert failures, KeyError, IndexError) are modeled with
   Option/Except. -/

/-- A Python float value: `none` models NaN. -/
abbrev Flo := Option ℚ

/-- Float addition; NaN propagates (NaN + x = x + NaN = NaN). -/
def fadd : Flo → Flo → Flo
  | some a, some b => some (a + b)
  | _, _ => none

/-- Float multiplication; NaN propagates (no infinities arise in this code). -/
def fmul : Flo → Flo → Flo
  | some a, some b => some (a * b)
  | _, _ => none

/-- Float max; NaN propagates (np.max returns NaN if any element is NaN). -/
def fmax : Flo → Flo → Flo
  | some a, some b => some (max a b)
  | _, _ => none

/-- Division by a nonzero constant (the literal 3600 in the source). -/
def fdivc (x : Flo) (c : ℚ) : Flo := x.map (fun a => a / c)

/-- np.sum over a list of floats. -/
def fsum (l : List Flo) : Flo := l.foldl fadd (some 0)

/-- np.max over a list of floats; the source only applies it to nonempty
    lists (np.max raises on an empty one, which cannot be reached under the
    guards in get_stats). -/
def fmaxList : List Flo → Flo
  | [] => none
  | x :: xs => xs.foldl fmax x

/- ------------------------------------------------------------------ -/
/- Pricing table: get_vm_cost (fctools.py:743-782)                     -/
/- ------------------------------------------------------------------ -/

/-- The `preemptible_dict` literal of `get_vm_cost`, as the sequence of
    key/value insertions written in the source, in source order.  Note that
    the source literal lists the key 'n1-standard-32' twice (0.3200 with
    comment 120 GB, then 0.6400 with comment 240 GB, in the position where
    'n1-standard-64' sits in `standard_dict`). -/
def preemptible_dict : List (String × ℚ) :=
  [("n1-standard-1", 100/10000),
   ("n1-standard-2", 200/10000),
   ("n1-standard-4", 400/10000),
   ("n1-standard-8", 800/10000),
   ("n1-standard-16", 1600/10000),
   ("n1-standard-32", 3200/10000),
   ("n1-standard-32", 6400/10000),
   ("n1-highmem-2", 250/10000),
   ("n1-highmem-4", 500/10000),
   ("n1-highmem-8", 1000/10000),
   ("n1-highmem-16", 2000/10000),
   ("n1-highmem-32", 4000/10000),
   ("n1-highmem-64", 8000/10000)]

/-- The `standard_dict` literal of `get_vm_cost`, in source order. -/
def standard_dict : List (String × ℚ) :=
  [("n1-standard-1", 475/10000),
   ("n1-standard-2", 950/10000),
   ("n1-standard-4", 1900/10000),
   ("n1-standard-8", 3800/10000),
   ("n1-standard-16", 7600/10000),
   ("n1-standard-32", 15200/10000),
   ("n1-standard-64", 30400/10000),
   ("n1-highmem-2", 1184/10000),
   ("n1-highmem-4", 2368/10000),
   ("n1-highmem-8", 4736/10000),
   ("n1-highmem-16", 9472/10000),
   ("n1-highmem-32", 18944/10000),
   ("n1-highmem-64", 37888/10000)]

/-- Lookup with Python dict-literal semantics: a later duplicate key
    overwrites an earlier one, so the value of the last insertion wins;
    an absent key gives `none` (a KeyError in Python). -/
def dictLookup (l : List (String × ℚ)) (k : String) : Option ℚ :=
  l.foldl (fun acc p => if p.1 = k then some p.2 else acc) none

/-- Embedding of `get_vm_cost(machine_type, preemptible=True)`: cost per hour
    from the selected table; `none` models the KeyError raised on an absent
    machine type. -/
def get_vm_cost (machine_type : String) (preemptible : Bool) : Option ℚ :=
  if preemptible then dictLookup preemptible_dict machine_type
  else dictLookup standard_dict machine_type

/- ------------------------------------------------------------------ -/
/- Execution metadata model                                            -/
/- ------------------------------------------------------------------ -/

/-- One attempt of one task, as read from an element of
    `metadata['calls'][task]`: timing, terminal execution status, job id,
    stderr object path, preemptible flag, and the machine type found under
    the 'jes' execution-backend key. -/
structure Attempt where
  start : ℚ
  /-- The 'end' key; absent (`none`) while the attempt is still running. -/
  endTime : Option ℚ
  executionStatus : String
  jobId : String
  stderr : String
  preemptible : Bool
  machineType : String
  deriving DecidableEq

/-- Embedding of `workflow_time`: elapsed seconds between 'start' and 'end',
    or np.NaN (`none`) when the record carries no 'end' key. -/
def workflow_time (startT : ℚ) (endT : Option ℚ) : Flo :=
  match endT with
  | some e => some (e - startT)
  | none => none

def slashStr : String := "/"

def commaStr : String := ","

/-- Python `s.rsplit('/')[-1]`: the last '/'-separated component (the whole
    string when no '/' occurs). -/
def lastSlashComponent (s : String) : String :=
  (s.splitOn slashStr).getLastD s

/-- Last element of a nonempty list: `xs[-1]` for `xs = a :: rest`. -/
def lastOf {α : Type} (a : α) : List α → α
  | [] => a
  | b :: t => lastOf b t

/-- The comprehension `[get_vm_cost(m,p)*h for h,m,p in zip(exec_times_h,
    machine_types, was_preemptible)]` of get_stats; an unknown machine type
    raises KeyError inside it, modeled as `Except.error`. -/
def costTerms : List (Flo × String × Bool) → Except Unit (List Flo)
  | [] => Except.ok []
  | (h, m, p) :: rest =>
    match get_vm_cost m p with
    | none => Except.error ()
    | some r =>
      match costTerms rest with
      | Except.error e => Except.error e
      | Except.ok ts => Except.ok (fmul (some r) h :: ts)

/-- One row of `task_dfs[task_name]` as filled by get_stats for one entity.
    `attempts` and `max_preempt_time_h` are `none` exactly when the code
    performs no assignment for them (the cell stays NaN from the DataFrame
    initialization); an assigned-but-NaN `max_preempt_time_h` is
    `some none`. -/
structure TaskRow where
  time_h : Flo
  total_time_h : Flo
  max_preempt_time_h : Option Flo
  machine_type : String
  attempts : Option Nat
  start_time : String
  est_cost : Flo
  job_ids : String
  deriving DecidableEq

/-- Embedding of the per-entity, per-task loop body of
    `WorkspaceManager.get_stats` (fctools.py:338-359), applied to one task's
    attempt list `metadata_dict[i]['calls'][t]`.  `fmt` abstracts the
    timezone conversion and '%H:%M' formatting applied to the last attempt's
    start timestamp.  An empty attempt list raises (IndexError on `[-1]`),
    and an unknown machine type raises KeyError: both are `Except.error`. -/
def taskStats (fmt : ℚ → String) (atts : List Attempt) : Except Unit TaskRow :=
  match atts with
  | [] => Except.error ()
  | a0 :: rest =>
    let lastA := lastOf a0 rest
    let time_h := fdivc (workflow_time lastA.start lastA.endTime) 3600
    let exec_times_h :=
      (a0 :: rest).map (fun a => fdivc (workflow_time a.start a.endTime) 3600)
    let total_time_h := fsum exec_times_h
    let machine_type := lastSlashComponent lastA.machineType
    let was_preemptible := (a0 :: rest).map Attempt.preemptible
    -- `if was_preemptible[0]:` assigns the attempts cell; otherwise it is
    -- left NaN (the commented-out else branch assigns nothing)
    let attempts : Option Nat :=
      if a0.preemptible then some (a0 :: rest).length else none
    -- `if task_dfs[...]['attempts'] > 1:`; a NaN cell compares as False
    let max_preempt_time_h : Option Flo :=
      match attempts with
      | some n =>
        if n > 1 then
          some (fdivc (fmaxList ((a0 :: rest).dropLast.map
            (fun a => workflow_time a.start a.endTime))) 3600)
        else none
      | none => none
    let start_time := fmt lastA.start
    let machine_types :=
      (a0 :: rest).map (fun a => lastSlashComponent a.machineType)
    match costTerms (List.zip exec_times_h (List.zip machine_types was_preemptible)) with
    | Except.error e => Except.error e
    | Except.ok terms =>
      Except.ok {
        time_h := time_h
        total_time_h := total_time_h
        max_preempt_time_h := max_preempt_time_h
        machine_type := machine_type
        attempts := attempts
        start_time := start_time
        est_cost := fsum terms
        job_ids := String.intercalate commaStr ((a0 :: rest).map Attempt.jobId) }

/- ------------------------------------------------------------------ -/
/- Concrete inputs for the pricing and scenario claims                 -/
/- ------------------------------------------------------------------ -/

def ns32 : String := "n1-standard-32"

def ns64 : String := "n1-standard-64"

def ns4 : String := "n1-standard-4"

def fmt0 : ℚ → String := fun _ => ""

def a1C5 : Attempt :=
  { start := 0, endTime := some 1440, executionStatus := "Failed",
    jobId := "j1", stderr := "", preemptible := true, machineType := ns4 }

def a2C5 : Attempt :=
  { start := 2000, endTime := some 2180, executionStatus := "Failed",
    jobId := "j2", stderr := "", preemptible := true, machineType := ns4 }

def a3C5 : Attempt :=
  { start := 3000, endTime := some 7320, executionStatus := "Done",
    jobId := "j3", stderr := "", preemptible := true, machineType := ns4 }

/-- C4: the pricing lookup does reject absent machine types (KeyError, never
    a default of zero), but it does not round-trip the table as written: the
    source's preemptible dict literal inserts 'n1-standard-32' twice (0.3200,
    then 0.6400 on the line commented 240 GB where 'n1-standard-64' belongs),
    so querying 'n1-standard-32' returns 0.6400 rather than the inserted
    0.3200, and 'n1-standard-64' — present in the on-demand table at 3.0400 —
    raises KeyError on the preemptible table. -/
theorem get_vm_cost_duplicate_key :
    preemptible_dict[5]? = some (ns32, (3200/10000 : ℚ))
    ∧ preemptible_dict[6]? = some (ns32, (6400/10000 : ℚ))
    ∧ get_vm_cost ns32 true = some (6400/10000)
    ∧ (6400/10000 : ℚ) ≠ (3200/10000 : ℚ)
    ∧ get_vm_cost ns64 true = none
    ∧ get_vm_cost ns64 false = some (30400/10000) := by with_unfolding_all decide

/-- C5: a task with three preemptible attempts of 0.4 h (Failed), 0.05 h
    (Failed) and 1.2 h (Done) on n1-standard-4 ($0.04/h preemptible) yields
    time_h = 1.2 (last attempt only), total_time_h = 1.65 (all attempts),
    attempts = 3, max_preempt_time_h = 0.4, and est_cost = 1.65 × 0.04 =
    0.066, each attempt billed at its own duration and preemptible rate. -/
theorem taskStats_three_preempt_attempts :
    taskStats fmt0 [a1C5, a2C5, a3C5] = Except.ok
      { time_h := some (12/10), total_time_h := some (165/100),
        max_preempt_time_h := some (some (4/10)), machine_type := ns4,
        attempts := some 3, start_time := "", est_cost := some (66/1000),
        job_ids := "j1,j2,j3" } := by with_unfolding_all rfl

/- ------------------------------------------------------------------ -/
/- Status Reducer: WorkspaceManager.get_submission_status              -/
/- (fctools.py:157-207)                                                -/
/- ------------------------------------------------------------------ -/

/-- One entry of a `get_submission` response's `workflows` list: workflow id,
    status, and the associated entity name (`workflowEntity.entityName`,
    consulted only in the multi-workflow sample_set branch). -/
structure SubWorkflow where
  workflowId : String
  status : String
  entityName : String
  deriving DecidableEq

/-- One submission, merging the fields read from `list_submissions` with the
    `workflows` list of the corresponding `get_submission` response (the two
    are keyed by the same submission id).  `submissionDate` holds the numeric
    timestamp `convert_time` would produce from the ISO date string. -/
structure Submission where
  submissionId : String
  methodConfigurationName : String
  submissionDate : ℚ
  entityType : String
  entityName : String
  workflows : List SubWorkflow
  deriving DecidableEq

/-- The per-entity record stored in `sample_dict`. -/
structure StatusRecord where
  status : String
  timestamp : ℚ
  submission_id : String
  configuration : String
  workflow_id : String
  deriving DecidableEq

/-- Contiguous-sublist test over character lists. -/
def containsSublist (needle : List Char) : List Char → Bool
  | [] => needle.isEmpty
  | c :: rest => needle.isPrefixOf (c :: rest) || containsSublist needle rest

/-- Python `configuration in s['methodConfigurationName']`: substring test. -/
def configMatches (configuration name : String) : Bool :=
  containsSublist configuration.toList name.toList

/-- The record built for workflow `w` of submission `s`. -/
def mkRecord (s : Submission) (w : SubWorkflow) : StatusRecord :=
  { status := w.status, timestamp := s.submissionDate,
    submission_id := s.submissionId,
    configuration := s.methodConfigurationName,
    workflow_id := w.workflowId }

/-- Entity/record pairs one submission contributes to `sample_dict`, derived
    per the entity-type branches of get_submission_status.  `none` models the
    IndexError `r['workflows'][0]` raises when the workflows list is empty in
    the sample/participant branches; the sample_set branch with a workflow
    count other than one only iterates, so it never raises. -/
def derivedPairs (s : Submission) : Option (List (String × StatusRecord)) :=
  if s.entityType = "sample" then
    match s.workflows with
    | [] => none
    | w :: _ => some [(s.entityName, mkRecord s w)]
  else if s.entityType = "sample_set" then
    match s.workflows with
    | [w] => some [(s.entityName, mkRecord s w)]
    | ws => some (ws.map (fun w => (w.entityName, mkRecord s w)))
  else if s.entityType = "participant" then
    match s.workflows with
    | [] => none
    | w :: _ => some [(s.entityName, mkRecord s w)]
  else
    some []

/-- First-occurrence lookup in the insertion-ordered dict `sample_dict`. -/
def lookupRec : List (String × StatusRecord) → String → Option StatusRecord
  | [], _ => none
  | (k, v) :: rest, e => if k = e then some v else lookupRec rest e

/-- Python dict assignment `sample_dict[e] = r`: overwrite in place when the
    key is present, append otherwise. -/
def setRec : List (String × StatusRecord) → String → StatusRecord →
    List (String × StatusRecord)
  | [], e, r => [(e, r)]
  | (k, v) :: rest, e, r =>
    if k = e then (k, r) :: rest else (k, v) :: setRec rest e r

/-- The guarded update `if e not in sample_dict or sample_dict[e]['timestamp']
    < ts: sample_dict[e] = r`. -/
def updateRecord (d : List (String × StatusRecord)) (e : String)
    (r : StatusRecord) : List (String × StatusRecord) :=
  match lookupRec d e with
  | none => setRec d e r
  | some r0 => if r0.timestamp < r.timestamp then setRec d e r else d

/-- Apply one submission's derived pairs to the dict, in derivation order. -/
def applyPairs (d : List (String × StatusRecord))
    (ps : List (String × StatusRecord)) : List (String × StatusRecord) :=
  ps.foldl (fun acc p => updateRecord acc p.1 p.2) d

/-- The submission loop of get_submission_status over an accumulator dict. -/
def reduceSubs : List Submission → List (String × StatusRecord) →
    Option (List (String × StatusRecord))
  | [], d => some d
  | s :: rest, d =>
    match derivedPairs s with
    | none => none
    | some ps => reduceSubs rest (applyPairs d ps)

/-- Embedding of `WorkspaceManager.get_submission_status`: filter submissions
    whose configuration name contains `configuration`, then fold the guarded
    last-write-wins update over them, starting from the empty dict. -/
def get_submission_status (configuration : String) (subs : List Submission) :
    Option (List (String × StatusRecord)) :=
  reduceSubs
    (subs.filter (fun s => configMatches configuration s.methodConfigurationName)) []

/-- The concatenation of every submission's derived pairs, in order; succeeds
    exactly when the loop raises no IndexError. -/
def allPairs : List Submission → Option (List (String × StatusRecord))
  | [] => some []
  | s :: rest =>
    match derivedPairs s, allPairs rest with
    | some ps, some qs => some (ps ++ qs)
    | _, _ => none

/-- The effect of the guarded update on a single dict slot: first write wins
    on equal timestamps, a strictly newer timestamp overwrites. -/
def combineRec : Option StatusRecord → StatusRecord → Option StatusRecord
  | none, r => some r
  | some r0, r => if r0.timestamp < r.timestamp then some r else some r0

/-- The records derived for entity `e`, in derivation order. -/
def recsFor (e : String) (ps : List (String × StatusRecord)) :
    List StatusRecord :=
  (ps.filter (fun p => p.1 = e)).map (fun p => p.2)

theorem lookupRec_setRec (d : List (String × StatusRecord)) (e x : String)
    (r : StatusRecord) :
    lookupRec (setRec d e r) x = if e = x then some r else lookupRec d x := by
  induction d with
  | nil =>
    by_cases hex : e = x <;> simp [setRec, lookupRec, hex]
  | cons p rest ih =>
    obtain ⟨k, v⟩ := p
    by_cases hk : k = e
    · subst hk
      by_cases hx : k = x
      · subst hx; simp [setRec, lookupRec]
      · simp [setRec, lookupRec, hx]
    · by_cases hx : k = x
      · subst hx
        have hex : ¬ e = k := fun h => hk h.symm
        simp [setRec, lookupRec, hk, hex]
      · simp [setRec, lookupRec, hk, hx, ih]

theorem lookupRec_updateRecord (d : List (String × StatusRecord)) (e x : String)
    (r : StatusRecord) :
    lookupRec (updateRecord d e r) x =
      if e = x then combineRec (lookupRec d e) r else lookupRec d x := by
  unfold updateRecord
  cases h : lookupRec d e with
  | none => simp [combineRec, lookupRec_setRec]
  | some r0 =>
    by_cases hlt : r0.timestamp < r.timestamp
    · simp [combineRec, hlt, lookupRec_setRec]
    · by_cases hex : e = x
      · subst hex; simp [combineRec, hlt, h]
      · simp [combineRec, hlt, hex]

theorem recsFor_cons (x e : String) (r : StatusRecord)
    (tl : List (String × StatusRecord)) :
    recsFor x ((e, r) :: tl) =
      if e = x then r :: recsFor x tl else recsFor x tl := by
  by_cases hex : e = x <;> simp [recsFor, List.filter_cons, hex]

theorem lookupRec_applyPairs (ps : List (String × StatusRecord)) :
    ∀ d x, lookupRec (applyPairs d ps) x =
      List.foldl combineRec (lookupRec d x) (recsFor x ps) := by
  induction ps with
  | nil => intro d x; simp [applyPairs, recsFor]
  | cons p tl ih =>
    intro d x
    obtain ⟨e, r⟩ := p
    have hstep : applyPairs d ((e, r) :: tl) = applyPairs (updateRecord d e r) tl := rfl
    rw [hstep, ih, recsFor_cons, lookupRec_updateRecord]
    by_cases hex : e = x
    · subst hex; simp
    · simp [hex]

theorem applyPairs_append (d : List (String × StatusRecord))
    (ps qs : List (String × StatusRecord)) :
    applyPairs d (ps ++ qs) = applyPairs (applyPairs d ps) qs := by
  simp [applyPairs, List.foldl_append]

theorem reduceSubs_eq_allPairs (subs : List Submission) :
    ∀ d, reduceSubs subs d = (allPairs subs).map (fun ps => applyPairs d ps) := by
  induction subs with
  | nil => intro d; simp [reduceSubs, allPairs, applyPairs]
  | cons s rest ih =>
    intro d
    cases hd : derivedPairs s with
    | none => simp [reduceSubs, allPairs, hd]
    | some ps =>
      have hstep : reduceSubs (s :: rest) d = reduceSubs rest (applyPairs d ps) := by
        simp [reduceSubs, hd]
      rw [hstep, ih]
      cases hr : allPairs rest with
      | none => simp [allPairs, hd, hr]
      | some qs => simp [allPairs, hd, hr, applyPairs_append]

theorem combineRec_isSome (a : Option StatusRecord) (r : StatusRecord) :
    (combineRec a r).isSome := by
  cases a with
  | none => simp [combineRec]
  | some r0 =>
    by_cases hlt : r0.timestamp < r.timestamp <;> simp [combineRec, hlt]

theorem foldl_combineRec_isSome (rs : List StatusRecord) :
    ∀ a : Option StatusRecord, a.isSome →
      (List.foldl combineRec a rs).isSome := by
  induction rs with
  | nil => intro a ha; simpa using ha
  | cons b tl ih =>
    intro a _
    have : (combineRec a b).isSome := combineRec_isSome a b
    simpa using ih (combineRec a b) this

theorem combineRec_le (a : Option StatusRecord) (b : StatusRecord) :
    ∃ c, combineRec a b = some c ∧ b.timestamp ≤ c.timestamp
      ∧ (∀ r0, a = some r0 → r0.timestamp ≤ c.timestamp)
      ∧ (a = some c ∨ c = b) := by
  cases a with
  | none =>
    refine ⟨b, rfl, le_refl _, ?_, Or.inr rfl⟩
    intro r0 h0
    cases h0
  | some r0 =>
    by_cases hlt : r0.timestamp < b.timestamp
    · refine ⟨b, by simp [combineRec, hlt], le_refl _, ?_, Or.inr rfl⟩
      intro r1 h1
      have h2 := Option.some.inj h1
      subst h2
      exact le_of_lt hlt
    · refine ⟨r0, by simp [combineRec, hlt], le_of_not_lt hlt, ?_, Or.inl rfl⟩
      intro r1 h1
      have h2 := Option.some.inj h1
      subst h2
      exact le_refl _

theorem foldl_combineRec_spec (rs : List StatusRecord) :
    ∀ (a : Option StatusRecord) (r : StatusRecord),
      List.foldl combineRec a rs = some r →
      (a = some r ∨ r ∈ rs)
      ∧ (∀ r' ∈ rs, r'.timestamp ≤ r.timestamp)
      ∧ (∀ r0, a = some r0 → r0.timestamp ≤ r.timestamp) := by
  induction rs with
  | nil =>
    intro a r h
    simp only [List.foldl_nil] at h
    refine ⟨Or.inl h, by simp, ?_⟩
    intro r0 h0
    rw [h0] at h
    have h2 := Option.some.inj h
    subst h2
    exact le_refl _
  | cons b tl ih =>
    intro a r h
    simp only [List.foldl_cons] at h
    obtain ⟨c, hc, hbc, haccc, hmemc⟩ := combineRec_le a b
    rw [hc] at h
    obtain ⟨hm, hmax, hacc⟩ := ih (some c) r h
    have hcr : c.timestamp ≤ r.timestamp := hacc c rfl
    refine ⟨?_, ?_, ?_⟩
    · cases hm with
      | inl heq =>
        have h2 := Option.some.inj heq
        subst h2
        cases hmemc with
        | inl ha => exact Or.inl ha
        | inr hcb => subst hcb; exact Or.inr (List.mem_cons_self _ _)
      | inr hmem => exact Or.inr (List.mem_cons_of_mem _ hmem)
    · intro r' hr'
      cases List.mem_cons.mp hr' with
      | inl hb => subst hb; exact le_trans hbc hcr
      | inr htl => exact hmax r' htl
    · intro r0 h0
      exact le_trans (haccc r0 h0) hcr

theorem lookupRec_eq_none_iff (d : List (String × StatusRecord)) (e : String) :
    lookupRec d e = none ↔ e ∉ d.map Prod.fst := by
  induction d with
  | nil => simp [lookupRec]
  | cons p rest ih =>
    obtain ⟨k, v⟩ := p
    by_cases hk : k = e
    · subst hk; simp [lookupRec]
    · have hek : ¬ e = k := fun h => hk h.symm
      simp [lookupRec, hk, hek, ih]

theorem keys_setRec (d : List (String × StatusRecord)) (e : String)
    (r : StatusRecord) :
    (setRec d e r).map Prod.fst =
      if lookupRec d e = none then d.map Prod.fst ++ [e]
      else d.map Prod.fst := by
  induction d with
  | nil => simp [setRec, lookupRec]
  | cons p rest ih =>
    obtain ⟨k, v⟩ := p
    by_cases hk : k = e
    · subst hk; simp [setRec, lookupRec]
    · simp only [setRec, hk, if_false, List.map_cons, lookupRec]
      rw [ih]
      cases h : lookupRec rest e with
      | none => simp [h]
      | some r0 => simp [h]

theorem nodup_keys_updateRecord (d : List (String × StatusRecord)) (e : String)
    (r : StatusRecord) (h : (d.map Prod.fst).Nodup) :
    ((updateRecord d e r).map Prod.fst).Nodup := by
  unfold updateRecord
  cases hl : lookupRec d e with
  | none =>
    rw [keys_setRec, if_pos hl]
    have hnot : e ∉ d.map Prod.fst := (lookupRec_eq_none_iff d e).mp hl
    simp [List.nodup_append, h, hnot]
  | some r0 =>
    by_cases hlt : r0.timestamp < r.timestamp
    · simp only [hlt, if_true]
      rw [keys_setRec, if_neg (by simp [hl])]
      exact h
    · simpa [hlt] using h

theorem nodup_keys_applyPairs (ps : List (String × StatusRecord)) :
    ∀ d, (d.map Prod.fst).Nodup → ((applyPairs d ps).map Prod.fst).Nodup := by
  induction ps with
  | nil => intro d h; simpa [applyPairs] using h
  | cons p tl ih =>
    intro d h
    have hstep : applyPairs d (p :: tl) = applyPairs (updateRecord d p.1 p.2) tl := rfl
    rw [hstep]
    exact ih _ (nodup_keys_updateRecord d p.1 p.2 h)

theorem get_submission_status_eq (c : String) (subs : List Submission)
    (d ps : List (String × StatusRecord))
    (hred : get_submission_status c subs = some d)
    (hps : allPairs (subs.filter
      (fun s => configMatches c s.methodConfigurationName)) = some ps) :
    d = applyPairs [] ps := by
  unfold get_submission_status at hred
  rw [reduceSubs_eq_allPairs, hps] at hred
  exact (Option.some.inj hred).symm

def cfgStr : String := "cfg"

def s1Str : String := "s1"

def subT1 : Submission :=
  { submissionId := "subF", methodConfigurationName := cfgStr,
    submissionDate := 1, entityType := "sample", entityName := s1Str,
    workflows := [{ workflowId := "wF", status := "Failed", entityName := s1Str }] }

def subT2 : Submission :=
  { submissionId := "subS", methodConfigurationName := cfgStr,
    submissionDate := 2, entityType := "sample", entityName := s1Str,
    workflows := [{ workflowId := "wS", status := "Succeeded", entityName := s1Str }] }

def recT1 : StatusRecord :=
  { status := "Failed", timestamp := 1, submission_id := "subF",
    configuration := cfgStr, workflow_id := "wF" }

def recT2 : StatusRecord :=
  { status := "Succeeded", timestamp := 2, submission_id := "subS",
    configuration := cfgStr, workflow_id := "wS" }

/-- The derived pairs of the two-submission scenario. -/
def pairsT : List (String × StatusRecord) := [(s1Str, recT1), (s1Str, recT2)]

/-- C2: for every submission list matching the requested configuration, the
    reducer's output has exactly one record per entity id (its key list has no
    duplicate); every record found for an entity is one of the records derived
    for that entity and carries the maximum timestamp among them; every
    derived entity is present in the output.  In particular, for the concrete
    scenario of two submissions for sample s1 with timestamps 1 < 2 and
    statuses Failed then Succeeded, the reduced output holds exactly the
    record with status Succeeded and timestamp 2. -/
theorem get_submission_status_one_record_max_timestamp
    (c : String) (subs : List Submission)
    (d ps : List (String × StatusRecord))
    (hred : get_submission_status c subs = some d)
    (hps : allPairs (subs.filter
      (fun s => configMatches c s.methodConfigurationName)) = some ps) :
    (d.map Prod.fst).Nodup
    ∧ (∀ e r, lookupRec d e = some r →
        r ∈ recsFor e ps ∧ ∀ r' ∈ recsFor e ps, r'.timestamp ≤ r.timestamp)
    ∧ (∀ p ∈ ps, (lookupRec d p.1).isSome)
    ∧ get_submission_status cfgStr [subT1, subT2] = some [(s1Str, recT2)] := by
  have hd : d = applyPairs [] ps := get_submission_status_eq c subs d ps hred hps
  subst hd
  refine ⟨nodup_keys_applyPairs ps [] (by simp), ?_, ?_, ?_⟩
  · intro e r hr
    rw [lookupRec_applyPairs] at hr
    have hspec := foldl_combineRec_spec (recsFor e ps) (lookupRec [] e) r hr
    obtain ⟨hmem, hmax, _⟩ := hspec
    refine ⟨?_, hmax⟩
    cases hmem with
    | inl habs => simp [lookupRec] at habs
    | inr hm => exact hm
  · intro p hp
    rw [lookupRec_applyPairs]
    have hmem : p.2 ∈ recsFor p.1 ps := by
      simp only [recsFor, List.mem_map, List.mem_filter]
      exact ⟨p, ⟨hp, by simp⟩, rfl⟩
    obtain ⟨b, tl, hrs⟩ : ∃ b tl, recsFor p.1 ps = b :: tl := by
      cases hcase : recsFor p.1 ps with
      | nil => rw [hcase] at hmem; cases hmem
      | cons b tl => exact ⟨b, tl, rfl⟩
    rw [hrs]
    simp only [List.foldl_cons]
    exact foldl_combineRec_isSome tl (combineRec (lookupRec [] p.1) b)
      (combineRec_isSome _ b)
  · with_unfolding_all decide

/-- C2 witness: the general theorem applied at the concrete two-submission
    scenario, instantiated at entity s1 and the record it maps to. -/
theorem get_submission_status_one_record_max_timestamp_witness :
    recT2 ∈ recsFor s1Str pairsT ∧ recT1.timestamp ≤ recT2.timestamp := by
  have h := get_submission_status_one_record_max_timestamp cfgStr [subT1, subT2]
    [(s1Str, recT2)] pairsT (by with_unfolding_all decide) (by with_unfolding_all decide)
  have h2 := h.2.1 s1Str recT2 (by with_unfolding_all decide)
  exact ⟨h2.1, h2.2 recT1 (by with_unfolding_all decide)⟩

def subX : Submission :=
  { submissionId := "X", methodConfigurationName := cfgStr,
    submissionDate := 1, entityType := "sample", entityName := s1Str,
    workflows := [{ workflowId := "wX", status := "Failed", entityName := s1Str }] }

def subY : Submission :=
  { submissionId := "Y", methodConfigurationName := cfgStr,
    submissionDate := 1, entityType := "sample", entityName := s1Str,
    workflows := [{ workflowId := "wY", status := "Succeeded", entityName := s1Str }] }

def recX : StatusRecord :=
  { status := "Failed", timestamp := 1, submission_id := "X",
    configuration := cfgStr, workflow_id := "wX" }

def recY : StatusRecord :=
  { status := "Succeeded", timestamp := 1, submission_id := "Y",
    configuration := cfgStr, workflow_id := "wY" }

/-- C3 counterexample: two submissions for the same sample with equal
    timestamps but different submission ids, workflow ids and statuses.  The
    guard uses a strict timestamp inequality, so the first-seen submission
    wins a tie and swapping the input order changes the per-entity record:
    the reducer is not invariant under permutation of the submission list. -/
theorem get_submission_status_order_dependent :
    List.Perm [subX, subY] [subY, subX]
    ∧ get_submission_status cfgStr [subX, subY] = some [(s1Str, recX)]
    ∧ get_submission_status cfgStr [subY, subX] = some [(s1Str, recY)]
    ∧ lookupRec [(s1Str, recX)] s1Str ≠ lookupRec [(s1Str, recY)] s1Str := by
  refine ⟨List.Perm.swap subY subX [], ?_⟩
  with_unfolding_all decide

theorem allPairs_cons_eq (s : Submission) (rest : List Submission)
    (ps : List (String × StatusRecord)) :
    allPairs (s :: rest) = some ps ↔
      ∃ ds qs, derivedPairs s = some ds ∧ allPairs rest = some qs
        ∧ ps = ds ++ qs := by
  cases hd : derivedPairs s with
  | none => simp [allPairs, hd]
  | some ds =>
    cases hr : allPairs rest with
    | none => simp [allPairs, hd, hr]
    | some qs => simp [allPairs, hd, hr, eq_comm]

theorem allPairs_perm {l1 l2 : List Submission} (hperm : List.Perm l1 l2) :
    ∀ ps1, allPairs l1 = some ps1 →
      ∃ ps2, allPairs l2 = some ps2 ∧ List.Perm ps1 ps2 := by
  induction hperm with
  | nil =>
    intro ps1 h
    exact ⟨ps1, h, List.Perm.refl _⟩
  | cons x hl ih =>
    intro ps1 h
    rw [allPairs_cons_eq] at h
    obtain ⟨ds, qs, hd, hq, rfl⟩ := h
    obtain ⟨qs2, hq2, hqperm⟩ := ih qs hq
    exact ⟨ds ++ qs2, (allPairs_cons_eq _ _ _).mpr ⟨ds, qs2, hd, hq2, rfl⟩,
      List.Perm.append_left ds hqperm⟩
  | swap x y l =>
    intro ps1 h
    rw [allPairs_cons_eq] at h
    obtain ⟨dy, rest1, hdy, hrest1, rfl⟩ := h
    rw [allPairs_cons_eq] at hrest1
    obtain ⟨dx, ql, hdx, hql, rfl⟩ := hrest1
    refine ⟨dx ++ (dy ++ ql), ?_, ?_⟩
    · rw [allPairs_cons_eq]
      exact ⟨dx, dy ++ ql, hdx,
        (allPairs_cons_eq _ _ _).mpr ⟨dy, ql, hdy, hql, rfl⟩, rfl⟩
    · have hp1 : List.Perm ((dy ++ dx) ++ ql) ((dx ++ dy) ++ ql) :=
        List.Perm.append_right ql (@List.perm_append_comm _ dy dx)
      have h2 : dy ++ (dx ++ ql) = (dy ++ dx) ++ ql :=
        (List.append_assoc dy dx ql).symm
      have h3 : (dx ++ dy) ++ ql = dx ++ (dy ++ ql) := List.append_assoc dx dy ql
      rw [h2, ← h3]
      exact hp1
  | trans hab hbc ih1 ih2 =>
    intro ps1 hp
    obtain ⟨psm, hm, hpermm⟩ := ih1 ps1 hp
    obtain ⟨ps2, hp2, hperm2⟩ := ih2 psm hm
    exact ⟨ps2, hp2, hpermm.trans hperm2⟩

theorem foldl_combineRec_perm (rs1 rs2 : List StatusRecord)
    (hperm : List.Perm rs1 rs2)
    (hinj : ∀ r r', r ∈ rs1 → r' ∈ rs1 → r.timestamp = r'.timestamp → r = r') :
    List.foldl combineRec none rs1 = List.foldl combineRec none rs2 := by
  cases rs1 with
  | nil =>
    have h2 : rs2 = [] := List.Perm.eq_nil hperm.symm
    subst h2
    rfl
  | cons b1 tl1 =>
    cases rs2 with
    | nil => exact absurd (List.Perm.eq_nil hperm) (by simp)
    | cons b2 tl2 =>
      have hs1 : (List.foldl combineRec none (b1 :: tl1)).isSome := by
        simp only [List.foldl_cons]
        exact foldl_combineRec_isSome tl1 (combineRec none b1)
          (combineRec_isSome none b1)
      have hs2 : (List.foldl combineRec none (b2 :: tl2)).isSome := by
        simp only [List.foldl_cons]
        exact foldl_combineRec_isSome tl2 (combineRec none b2)
          (combineRec_isSome none b2)
      obtain ⟨r1, hr1⟩ := Option.isSome_iff_exists.mp hs1
      obtain ⟨r2, hr2⟩ := Option.isSome_iff_exists.mp hs2
      obtain ⟨hm1, hmax1, _⟩ := foldl_combineRec_spec (b1 :: tl1) none r1 hr1
      obtain ⟨hm2, hmax2, _⟩ := foldl_combineRec_spec (b2 :: tl2) none r2 hr2
      have hmem1 : r1 ∈ b1 :: tl1 := by
        cases hm1 with
        | inl h => simp at h
        | inr h => exact h
      have hmem2 : r2 ∈ b2 :: tl2 := by
        cases hm2 with
        | inl h => simp at h
        | inr h => exact h
      have hmem2b : r2 ∈ b1 :: tl1 := hperm.mem_iff.mpr hmem2
      have hmem1b : r1 ∈ b2 :: tl2 := hperm.mem_iff.mp hmem1
      have hle1 : r1.timestamp ≤ r2.timestamp := hmax2 r1 hmem1b
      have hle2 : r2.timestamp ≤ r1.timestamp := hmax1 r2 hmem2b
      have heq : r1 = r2 := hinj r1 r2 hmem1 hmem2b (le_antisymm hle1 hle2)
      rw [hr1, hr2, heq]

/-- C3 (amended): the status reducer is invariant under permutation of the
    submission list provided no two derived records for the same entity carry
    equal timestamps without being the same record.  (As written the claim is
    false: the strict-inequality guard breaks timestamp ties by input order,
    see the counterexample with two equal-timestamp submissions.) -/
theorem get_submission_status_perm_invariant
    (c : String) (l1 l2 : List Submission)
    (d1 d2 ps1 : List (String × StatusRecord))
    (hperm : List.Perm l1 l2)
    (h1 : get_submission_status c l1 = some d1)
    (h2 : get_submission_status c l2 = some d2)
    (hps : allPairs (l1.filter
      (fun s => configMatches c s.methodConfigurationName)) = some ps1)
    (hinj : ∀ p q, p ∈ ps1 → q ∈ ps1 → p.1 = q.1 →
      p.2.timestamp = q.2.timestamp → p.2 = q.2) :
    ∀ e, lookupRec d1 e = lookupRec d2 e := by
  have hfperm :=
    hperm.filter (fun s => configMatches c s.methodConfigurationName)
  obtain ⟨ps2, hps2, hpperm⟩ := allPairs_perm hfperm ps1 hps
  have hd1 : d1 = applyPairs [] ps1 := get_submission_status_eq c l1 d1 ps1 h1 hps
  have hd2 : d2 = applyPairs [] ps2 := get_submission_status_eq c l2 d2 ps2 h2 hps2
  subst hd1
  subst hd2
  intro e
  rw [lookupRec_applyPairs, lookupRec_applyPairs]
  have hrs : List.Perm (recsFor e ps1) (recsFor e ps2) := by
    unfold recsFor
    exact List.Perm.map (fun p => p.2)
      (List.Perm.filter (fun p => decide (p.1 = e)) hpperm)
  have hlk : lookupRec ([] : List (String × StatusRecord)) e = none := rfl
  rw [hlk]
  apply foldl_combineRec_perm _ _ hrs
  intro r r' hr hr' hts
  simp only [recsFor, List.mem_map, List.mem_filter] at hr hr'
  obtain ⟨p, ⟨hpmem, hpe⟩, hpr⟩ := hr
  obtain ⟨q, ⟨hqmem, hqe⟩, hqr⟩ := hr'
  have hpe2 : p.1 = e := by simpa using hpe
  have hqe2 : q.1 = e := by simpa using hqe
  have := hinj p q hpmem hqmem (hpe2.trans hqe2.symm)
    (by rw [hpr, hqr]; exact hts)
  rw [← hpr, ← hqr, this]

/-- C3 witness: the amended theorem applied at the concrete two-submission
    input with distinct timestamps 1 and 2 and its swap. -/
theorem get_submission_status_perm_invariant_witness :
    lookupRec [(s1Str, recT2)] s1Str = lookupRec [(s1Str, recT2)] s1Str :=
  get_submission_status_perm_invariant cfgStr [subT1, subT2] [subT2, subT1]
    [(s1Str, recT2)] [(s1Str, recT2)] pairsT
    (List.Perm.swap subT2 subT1 []) (by with_unfolding_all decide)
    (by with_unfolding_all decide) (by with_unfolding_all decide)
    (by
      intro p q hp hq hfst hts
      simp only [pairsT, List.mem_cons, List.not_mem_nil, or_false] at hp hq
      rcases hp with hp | hp <;> rcases hq with hq | hq <;>
        subst hp <;> subst hq <;> revert hts <;> with_unfolding_all decide)
    s1Str

/- ------------------------------------------------------------------ -/
/- Cost aggregator metadata fetch: get_stats (fctools.py:313-320)      -/
/- ------------------------------------------------------------------ -/

/-- One workflow's execution metadata as returned by
    `get_workflow_metadata`: overall timing, workflow name, and the mapping
    from task name to its ordered attempt list. -/
structure WorkflowMetadata where
  start : ℚ
  /-- The 'end' key; absent while the workflow is running. -/
  endTime : Option ℚ
  workflowName : String
  calls : List (String × List Attempt)
  deriving DecidableEq

/-- One row of the status DataFrame consumed by get_stats. -/
structure StatusRow where
  entity : String
  status : String
  submission_id : String
  workflow_id : String
  deriving DecidableEq

/-- The fetch loop of get_stats over the already-filtered rows: each row's
    metadata is requested and `assert metadata.status_code==200` aborts the
    whole call on a non-200 response (`Except.error`). -/
def fetchGo (fetch : String → String → Nat × WorkflowMetadata) :
    List StatusRow → Except Unit (List (String × WorkflowMetadata))
  | [] => Except.ok []
  | r :: rest =>
    let res := fetch r.submission_id r.workflow_id
    if res.1 = 200 then
      match fetchGo fetch rest with
      | Except.error e => Except.error e
      | Except.ok l => Except.ok ((r.entity, res.2) :: l)
    else Except.error ()

/-- Embedding of the metadata-collection phase of
    `WorkspaceManager.get_stats`: restrict the status table to rows with
    status Succeeded, then fetch each one's workflow metadata, asserting a
    200 status code on every response.  `fetch` abstracts
    `firecloud.api.get_workflow_metadata` as a function of (submission id,
    workflow id) returning a transport status code and a payload. -/
def fetchSucceededMetadata (fetch : String → String → Nat × WorkflowMetadata)
    (rows : List StatusRow) : Except Unit (List (String × WorkflowMetadata)) :=
  fetchGo fetch (rows.filter (fun r => r.status = "Succeeded"))

def mdEmpty : WorkflowMetadata :=
  { start := 0, endTime := some 0, workflowName := "wf", calls := [] }

/-- A remote service for which submission sub1 responds 200 and every other
    submission responds 500. -/
def fetchCex : String → String → Nat × WorkflowMetadata :=
  fun sid _ => if sid = "sub1" then (200, mdEmpty) else (500, mdEmpty)

def rowOk : StatusRow :=
  { entity := "e1", status := "Succeeded", submission_id := "sub1",
    workflow_id := "w1" }

def rowBad : StatusRow :=
  { entity := "e2", status := "Succeeded", submission_id := "sub2",
    workflow_id := "w2" }

/-- C1 counterexample: with two succeeded rows of which the second one's
    metadata fetch returns status 500, get_stats hits its assert and the
    whole aggregation aborts: there is no output at all, so the healthy
    entity e1 does not appear in any result; the failing entity is not
    merely excluded with a warning. -/
theorem fetch_failure_not_partial :
    fetchSucceededMetadata fetchCex [rowOk, rowBad] = Except.error ()
    ∧ ¬ ∃ out, fetchSucceededMetadata fetchCex [rowOk, rowBad] = Except.ok out
        ∧ ("e1", mdEmpty) ∈ out := by
  have herr : fetchSucceededMetadata fetchCex [rowOk, rowBad] =
      Except.error () := by with_unfolding_all rfl
  refine ⟨herr, ?_⟩
  rintro ⟨out, hout, _⟩
  rw [herr] at hout
  exact Except.noConfusion hout

theorem fetchGo_error (fetch : String → String → Nat × WorkflowMetadata)
    (l : List StatusRow) (r : StatusRow) (hmem : r ∈ l)
    (hcode : (fetch r.submission_id r.workflow_id).1 ≠ 200) :
    fetchGo fetch l = Except.error () := by
  induction l with
  | nil => cases hmem
  | cons b tl ih =>
    cases List.mem_cons.mp hmem with
    | inl hb => subst hb; simp [fetchGo, hcode]
    | inr htl =>
      by_cases hb : (fetch b.submission_id b.workflow_id).1 = 200
      · simp [fetchGo, hb, ih htl]
      · simp [fetchGo, hb]

/-- C1 (amended): a failed metadata fetch for any surviving workflow aborts
    the whole aggregation (the assert raises an AssertionError) rather than
    excluding only the failing entity: whenever some Succeeded row's fetch
    returns a non-200 code, the call errors and no partial output exists. -/
theorem fetch_failure_aborts_all
    (fetch : String → String → Nat × WorkflowMetadata)
    (rows : List StatusRow) (r : StatusRow)
    (hr : r ∈ rows) (hs : r.status = "Succeeded")
    (hcode : (fetch r.submission_id r.workflow_id).1 ≠ 200) :
    fetchSucceededMetadata fetch rows = Except.error () := by
  unfold fetchSucceededMetadata
  exact fetchGo_error fetch _ r (List.mem_filter.mpr ⟨hr, by simp [hs]⟩) hcode

/-- C1 witness: the amended theorem applied at the concrete two-row input. -/
theorem fetch_failure_aborts_all_witness :
    fetchSucceededMetadata fetchCex [rowOk, rowBad] = Except.error () :=
  fetch_failure_aborts_all fetchCex [rowOk, rowBad] rowBad
    (by simp) (by with_unfolding_all decide) (by with_unfolding_all decide)

/- ------------------------------------------------------------------ -/
/- Failure Diagnostics View: display_status (fctools.py:210-235)       -/
/- ------------------------------------------------------------------ -/

/-- The `status_code` dict of display_status; `none` models the KeyError an
    unrecognized execution-status string raises. -/
def status_code (s : String) : Option Int :=
  if s = "Running" then some 1
  else if s = "Done" then some 2
  else if s = "Failed" then some (-1)
  else none

/-- First-occurrence lookup of a task name in the calls map
    (`t in metadata['calls']` / `metadata['calls'][t]`). -/
def lookupCalls : List (String × List Attempt) → String → Option (List Attempt)
  | [], _ => none
  | (k, v) :: rest, t => if k = t then some v else lookupCalls rest t

/-- One cell of the failure state matrix:
    `status_code[metadata['calls'][t][-1]['executionStatus']] if t in
    metadata['calls'] else 0`.  `none` models the exception raised either on
    a status string outside the dict or on an empty attempt list (where the
    `[-1]` index raises). -/
def display_status_cell (md : WorkflowMetadata) (t : String) : Option Int :=
  match lookupCalls md.calls t with
  | none => some 0
  | some atts =>
    match atts.getLast? with
    | none => none
    | some a => status_code a.executionStatus

/-- One row of the state matrix: the cell comprehension over the task list
    discovered from the reference workflow; an exception in any cell aborts
    the whole call. -/
def display_status_row (md : WorkflowMetadata) (tasks : List String) :
    Option (List Int) :=
  tasks.mapM (display_status_cell md)

/-- C9: a state-matrix cell is 0 exactly for tasks absent from the failing
    run's metadata; a task that is present but whose last attempt carries an
    execution-status string outside Running/Done/Failed makes the computation
    fail (KeyError on the status_code dict) instead of coercing the cell to
    0. -/
theorem display_status_cell_spec (md : WorkflowMetadata) (t : String) :
    (lookupCalls md.calls t = none → display_status_cell md t = some 0)
    ∧ (∀ atts a, lookupCalls md.calls t = some atts → atts.getLast? = some a →
        a.executionStatus ≠ "Running" → a.executionStatus ≠ "Done" →
        a.executionStatus ≠ "Failed" → display_status_cell md t = none)
    ∧ (display_status_cell md t = some 0 → lookupCalls md.calls t = none) := by
  refine ⟨?_, ?_, ?_⟩
  · intro h
    simp [display_status_cell, h]
  · intro atts a h1 h2 hr hd hf
    simp [display_status_cell, h1, h2, status_code, hr, hd, hf]
  · intro h
    cases hl : lookupCalls md.calls t with
    | none => rfl
    | some atts =>
      exfalso
      simp only [display_status_cell, hl] at h
      cases hlast : atts.getLast? with
      | none => rw [hlast] at h; cases h
      | some a =>
        rw [hlast] at h
        simp only [status_code] at h
        by_cases hr : a.executionStatus = "Running"
        · simp [hr] at h
        · by_cases hd : a.executionStatus = "Done"
          · simp [hr, hd] at h
          · by_cases hf : a.executionStatus = "Failed"
            · simp [hr, hd, hf] at h
            · simp [hr, hd, hf] at h

def aDone : Attempt :=
  { start := 0, endTime := some 10, executionStatus := "Done",
    jobId := "j", stderr := "", preemptible := true, machineType := ns4 }

def alignStr : String := "align"

def mdC9 : WorkflowMetadata :=
  { start := 0, endTime := some 10, workflowName := "wf",
    calls := [("wf.quantify", [aDone])] }

/-- C9 witness, the spec scenario: task align never appears in the failing
    entity's metadata, so its cell is 0, not an error. -/
theorem display_status_cell_spec_witness :
    display_status_cell mdC9 alignStr = some 0 :=
  (display_status_cell_spec mdC9 alignStr).1 (by with_unfolding_all decide)

/- ------------------------------------------------------------------ -/
/- C8: handling of non-terminal attempts in get_stats                  -/
/- ------------------------------------------------------------------ -/

def a1C8 : Attempt :=
  { start := 0, endTime := some 3600, executionStatus := "Running",
    jobId := "k1", stderr := "", preemptible := true, machineType := ns4 }

def a2C8 : Attempt :=
  { start := 4000, endTime := some 7600, executionStatus := "Done",
    jobId := "k2", stderr := "", preemptible := true, machineType := ns4 }

def rowC8 : TaskRow :=
  { time_h := some 1, total_time_h := some 2,
    max_preempt_time_h := some (some 1), machine_type := ns4,
    attempts := some 2, start_time := "", est_cost := some (8/100),
    job_ids := "k1,k2" }

/-- C8 counterexample: an attempt with the non-terminal status Running
    followed by another attempt is aggregated silently; its duration counts
    toward total_time_h (2 h, not the 1 h of the terminal attempt alone), no
    error is raised, and no field of the output row flags the invariant
    violation. -/
theorem taskStats_nonterminal_aggregated :
    a1C8.executionStatus = "Running"
    ∧ taskStats fmt0 [a1C8, a2C8] = Except.ok rowC8
    ∧ rowC8.total_time_h = some 2
    ∧ rowC8.total_time_h ≠ some 1 := by
  refine ⟨rfl, by with_unfolding_all rfl, by with_unfolding_all rfl, ?_⟩
  with_unfolding_all decide

/-- Equality on every attempt field get_stats reads (all but
    executionStatus). -/
def sameIgnoringStatus (a b : Attempt) : Prop :=
  a.start = b.start ∧ a.endTime = b.endTime ∧ a.jobId = b.jobId
    ∧ a.preemptible = b.preemptible ∧ a.machineType = b.machineType

theorem map_eq_of_forall₂ {β : Type} (f g : Attempt → β)
    {l1 l2 : List Attempt} (h : List.Forall₂ sameIgnoringStatus l1 l2)
    (hfg : ∀ a b, sameIgnoringStatus a b → f a = g b) :
    l1.map f = l2.map g := by
  induction h with
  | nil => rfl
  | cons hab htl ih => simp [List.map_cons, hfg _ _ hab, ih]

theorem forall₂_dropLast {l1 l2 : List Attempt}
    (h : List.Forall₂ sameIgnoringStatus l1 l2) :
    List.Forall₂ sameIgnoringStatus l1.dropLast l2.dropLast := by
  induction h with
  | nil => simp
  | cons hab htl ih =>
    cases htl with
    | nil => simp
    | cons hcd htl2 =>
      exact List.Forall₂.cons hab ih

theorem lastOf_same {a0 b0 : Attempt} {t1 t2 : List Attempt}
    (hab : sameIgnoringStatus a0 b0)
    (htl : List.Forall₂ sameIgnoringStatus t1 t2) :
    sameIgnoringStatus (lastOf a0 t1) (lastOf b0 t2) := by
  induction htl generalizing a0 b0 with
  | nil => exact hab
  | cons hcd htl2 ih => exact ih hcd

/-- C8 (amended): get_stats never inspects executionStatus, so a task whose
    attempt sequence violates the only-the-last-attempt-may-be-non-terminal
    invariant is aggregated exactly like a fully terminal one, with nothing
    rejected, logged or flagged: the output is unchanged under arbitrary
    rewriting of every attempt's execution status. -/
theorem taskStats_ignores_executionStatus (fmt : ℚ → String)
    (l1 l2 : List Attempt) (h : List.Forall₂ sameIgnoringStatus l1 l2) :
    taskStats fmt l1 = taskStats fmt l2 := by
  cases h with
  | nil => rfl
  | cons hab htl =>
    rename_i a0 b0 t1 t2
    have hall : List.Forall₂ sameIgnoringStatus (a0 :: t1) (b0 :: t2) :=
      List.Forall₂.cons hab htl
    have hlast := lastOf_same hab htl
    have hmap1 : (a0 :: t1).map (fun a => fdivc (workflow_time a.start a.endTime) 3600)
        = (b0 :: t2).map (fun a => fdivc (workflow_time a.start a.endTime) 3600) :=
      map_eq_of_forall₂ _ _ hall (fun a b hs => by rw [hs.1, hs.2.1])
    have hmapmt : (a0 :: t1).map (fun a => lastSlashComponent a.machineType)
        = (b0 :: t2).map (fun a => lastSlashComponent a.machineType) :=
      map_eq_of_forall₂ _ _ hall (fun a b hs => by rw [hs.2.2.2.2])
    have hmapp : (a0 :: t1).map Attempt.preemptible
        = (b0 :: t2).map Attempt.preemptible :=
      map_eq_of_forall₂ _ _ hall (fun a b hs => hs.2.2.2.1)
    have hmapjob : (a0 :: t1).map Attempt.jobId
        = (b0 :: t2).map Attempt.jobId :=
      map_eq_of_forall₂ _ _ hall (fun a b hs => hs.2.2.1)
    have hmaxmap : (a0 :: t1).dropLast.map (fun a => workflow_time a.start a.endTime)
        = (b0 :: t2).dropLast.map (fun a => workflow_time a.start a.endTime) :=
      map_eq_of_forall₂ _ _ (forall₂_dropLast hall)
        (fun a b hs => by rw [hs.1, hs.2.1])
    have hlen : (a0 :: t1).length = (b0 :: t2).length := hall.length_eq
    simp only [taskStats]
    rw [hmap1, hmapmt, hmapp, hmapjob, hmaxmap, hlen, hlast.1, hlast.2.1,
      hlast.2.2.2.2, hab.2.2.2.1]

def a1C8f : Attempt :=
  { start := 0, endTime := some 3600, executionStatus := "Failed",
    jobId := "k1", stderr := "", preemptible := true, machineType := ns4 }

/-- C8 witness: rewriting the non-terminal first attempt's status to Failed
    leaves the aggregated row unchanged. -/
theorem taskStats_ignores_executionStatus_witness :
    taskStats fmt0 [a1C8, a2C8] = taskStats fmt0 [a1C8f, a2C8] :=
  taskStats_ignores_executionStatus fmt0 [a1C8, a2C8] [a1C8f, a2C8]
    (List.Forall₂.cons ⟨rfl, rfl, rfl, rfl, rfl⟩
      (List.Forall₂.cons ⟨rfl, rfl, rfl, rfl, rfl⟩ List.Forall₂.nil))

/- ------------------------------------------------------------------ -/
/- C7, C6, C10: field-level facts about the get_stats task loop        -/
/- ------------------------------------------------------------------ -/

/-- C7: for every nonempty attempt list accepted by get_stats, the
    `attempts` cell is set to the attempt count exactly when the first
    attempt ran preemptibly (and is left unset otherwise, even for a
    multi-attempt on-demand task), and `max_preempt_time_h` is set to the
    maximum elapsed time over all attempts but the last exactly when the
    attempts cell holds a count greater than 1, and is left unset
    otherwise. -/
theorem taskStats_attempts_max_preempt (fmt : ℚ → String)
    (a0 : Attempt) (rest : List Attempt) (row : TaskRow)
    (h : taskStats fmt (a0 :: rest) = Except.ok row) :
    (row.attempts = if a0.preemptible then some (a0 :: rest).length else none)
    ∧ (row.max_preempt_time_h =
        if a0.preemptible ∧ (a0 :: rest).length > 1 then
          some (fdivc (fmaxList ((a0 :: rest).dropLast.map
            (fun a => workflow_time a.start a.endTime))) 3600)
        else none) := by
  simp only [taskStats] at h
  split at h
  · exact Except.noConfusion h
  · have hrow := Except.ok.inj h
    subst hrow
    refine ⟨rfl, ?_⟩
    by_cases hp : a0.preemptible
    · by_cases hl : (a0 :: rest).length > 1
      · simp [hp, hl]
      · simp [hp, hl]
    · simp [hp]

/-- C7 witness: the two-preemptible-attempt input. -/
theorem taskStats_attempts_max_preempt_witness :
    (rowC8.attempts =
      if a1C8.preemptible then some ([a1C8, a2C8]).length else none)
    ∧ (rowC8.max_preempt_time_h =
        if a1C8.preemptible ∧ ([a1C8, a2C8]).length > 1 then
          some (fdivc (fmaxList (([a1C8, a2C8]).dropLast.map
            (fun a => workflow_time a.start a.endTime))) 3600)
        else none) :=
  taskStats_attempts_max_preempt fmt0 a1C8 [a2C8] rowC8
    (by with_unfolding_all rfl)

/-- The cost term one attempt contributes inside the est_cost comprehension
    (meaningful when its machine type is priced). -/
def costTerm (b : Attempt) : Flo :=
  match get_vm_cost (lastSlashComponent b.machineType) b.preemptible with
  | some r => fmul (some r) (fdivc (workflow_time b.start b.endTime) 3600)
  | none => none

theorem costTerms_ok (l : List Attempt)
    (hprice : ∀ b ∈ l,
      (get_vm_cost (lastSlashComponent b.machineType) b.preemptible).isSome) :
    costTerms (List.zip
        (l.map (fun a => fdivc (workflow_time a.start a.endTime) 3600))
        (List.zip (l.map (fun a => lastSlashComponent a.machineType))
          (l.map Attempt.preemptible)))
      = Except.ok (l.map costTerm) := by
  induction l with
  | nil => rfl
  | cons b tl ih =>
    have hb := hprice b (List.mem_cons_self b tl)
    have htl : ∀ x ∈ tl,
        (get_vm_cost (lastSlashComponent x.machineType) x.preemptible).isSome :=
      fun x hx => hprice x (List.mem_cons_of_mem b hx)
    cases hv : get_vm_cost (lastSlashComponent b.machineType) b.preemptible with
    | none => rw [hv] at hb; cases hb
    | some r =>
      have ih2 := ih htl
      simp only [List.zip] at ih2
      simp only [List.map_cons, List.zip_cons_cons, costTerms, hv, costTerm,
        List.zip]
      rw [ih2]

theorem taskStats_ok_fields (fmt : ℚ → String) (a0 : Attempt)
    (rest : List Attempt)
    (hprice : ∀ b ∈ a0 :: rest,
      (get_vm_cost (lastSlashComponent b.machineType) b.preemptible).isSome) :
    ∃ row, taskStats fmt (a0 :: rest) = Except.ok row
      ∧ row.time_h =
          fdivc (workflow_time (lastOf a0 rest).start (lastOf a0 rest).endTime) 3600
      ∧ row.total_time_h =
          fsum ((a0 :: rest).map (fun a => fdivc (workflow_time a.start a.endTime) 3600))
      ∧ row.est_cost = fsum ((a0 :: rest).map costTerm) := by
  simp only [taskStats]
  rw [costTerms_ok _ hprice]
  exact ⟨_, rfl, rfl, rfl, rfl⟩

theorem fadd_none_left (x : Flo) : fadd none x = none := by
  cases x <;> rfl

theorem fadd_none_right (x : Flo) : fadd x none = none := by
  cases x <;> rfl

theorem foldl_fadd_none_acc (l : List Flo) :
    List.foldl fadd none l = none := by
  induction l with
  | nil => rfl
  | cons x tl ih => rw [List.foldl_cons, fadd_none_left]; exact ih

theorem foldl_fadd_none_mem (l : List Flo) :
    ∀ acc : Flo, none ∈ l → List.foldl fadd acc l = none := by
  induction l with
  | nil => intro acc h; cases h
  | cons x tl ih =>
    intro acc h
    rw [List.foldl_cons]
    cases List.mem_cons.mp h with
    | inl hx => rw [← hx, fadd_none_right]; exact foldl_fadd_none_acc tl
    | inr htl => exact ih _ htl

theorem foldl_fadd_some (l : List Attempt) (f : Attempt → ℚ) :
    ∀ q : ℚ, List.foldl fadd (some q) (l.map (fun b => some (f b)))
      = some (q + (l.map f).sum) := by
  induction l with
  | nil => intro q; simp
  | cons b tl ih =>
    intro q
    simp only [List.map_cons, List.foldl_cons, fadd, List.sum_cons]
    rw [ih (q + f b), add_assoc]

theorem fsum_map_some (l : List Attempt) (f : Attempt → ℚ) :
    fsum (l.map (fun b => some (f b))) = some ((l.map f).sum) := by
  unfold fsum
  rw [foldl_fadd_some l f 0, zero_add]

/-- Attempt duration in hours; equal to the code's `workflow_time/3600`
    whenever the attempt carries an end timestamp. -/
def durH (b : Attempt) : ℚ := ((b.endTime.getD b.start) - b.start) / 3600

/-- The hourly rate of an attempt's machine; equal to the code's
    `get_vm_cost(m,p)` whenever the machine type is priced. -/
def rateOf (b : Attempt) : ℚ :=
  (get_vm_cost (lastSlashComponent b.machineType) b.preemptible).getD 0

theorem taskStats_sums (fmt : ℚ → String) (a0 : Attempt) (rest : List Attempt)
    (hprice : ∀ b ∈ a0 :: rest,
      (get_vm_cost (lastSlashComponent b.machineType) b.preemptible).isSome)
    (hdur : ∀ b ∈ a0 :: rest, ∃ e, b.endTime = some e) :
    ∃ row, taskStats fmt (a0 :: rest) = Except.ok row
      ∧ row.total_time_h = some (((a0 :: rest).map durH).sum)
      ∧ row.est_cost =
          some (((a0 :: rest).map (fun b => rateOf b * durH b)).sum) := by
  obtain ⟨row, hrow, _, htot, hcost⟩ := taskStats_ok_fields fmt a0 rest hprice
  refine ⟨row, hrow, ?_, ?_⟩
  · rw [htot]
    have hmapeq : (a0 :: rest).map (fun a => fdivc (workflow_time a.start a.endTime) 3600)
        = (a0 :: rest).map (fun b => some (durH b)) := by
      apply List.map_congr_left
      intro b hb
      obtain ⟨e, he⟩ := hdur b hb
      rw [he]
      simp [workflow_time, fdivc, durH, he]
    rw [hmapeq, fsum_map_some]
  · rw [hcost]
    have hmapeq2 : (a0 :: rest).map costTerm
        = (a0 :: rest).map (fun b => some (rateOf b * durH b)) := by
      apply List.map_congr_left
      intro b hb
      obtain ⟨e, he⟩ := hdur b hb
      have hbp := hprice b hb
      cases hv : get_vm_cost (lastSlashComponent b.machineType) b.preemptible with
      | none => rw [hv] at hbp; cases hbp
      | some r =>
        simp [costTerm, hv, he, workflow_time, fdivc, fmul, rateOf, durH]
    rw [hmapeq2, fsum_map_some]

theorem dictLookup_mem_aux (l : List (String × ℚ)) (k : String) (v : ℚ) :
    ∀ acc : Option ℚ,
      l.foldl (fun acc p => if p.1 = k then some p.2 else acc) acc = some v →
      v ∈ l.map Prod.snd ∨ acc = some v := by
  induction l with
  | nil => intro acc h; exact Or.inr h
  | cons p tl ih =>
    intro acc h
    rw [List.foldl_cons] at h
    cases ih _ h with
    | inl hm => exact Or.inl (List.mem_cons_of_mem _ hm)
    | inr hacc =>
      by_cases hk : p.1 = k
      · rw [if_pos hk] at hacc
        have h2 := Option.some.inj hacc
        exact Or.inl (by rw [List.map_cons, ← h2]; exact List.mem_cons_self _ _)
      · rw [if_neg hk] at hacc
        exact Or.inr hacc

theorem table_vals_nonneg :
    (∀ v ∈ preemptible_dict.map Prod.snd, 0 ≤ v)
    ∧ (∀ v ∈ standard_dict.map Prod.snd, 0 ≤ v) := by
  with_unfolding_all decide

theorem get_vm_cost_nonneg (m : String) (p : Bool) (r : ℚ)
    (h : get_vm_cost m p = some r) : 0 ≤ r := by
  unfold get_vm_cost at h
  cases p with
  | true =>
    rw [if_pos rfl] at h
    unfold dictLookup at h
    cases dictLookup_mem_aux preemptible_dict m r none h with
    | inl hm => exact table_vals_nonneg.1 r hm
    | inr habs => exact Option.noConfusion habs
  | false =>
    rw [if_neg (by simp)] at h
    unfold dictLookup at h
    cases dictLookup_mem_aux standard_dict m r none h with
    | inl hm => exact table_vals_nonneg.2 r hm
    | inr habs => exact Option.noConfusion habs

theorem rateOf_nonneg (b : Attempt)
    (h : (get_vm_cost (lastSlashComponent b.machineType) b.preemptible).isSome) :
    0 ≤ rateOf b := by
  cases hv : get_vm_cost (lastSlashComponent b.machineType) b.preemptible with
  | none => rw [hv] at h; cases h
  | some r =>
    have hnn := get_vm_cost_nonneg _ _ _ hv
    simp [rateOf, hv, hnn]

theorem durH_nonneg (b : Attempt) (e : ℚ) (he : b.endTime = some e)
    (hle : b.start ≤ e) : 0 ≤ durH b := by
  unfold durH
  rw [he]
  have h1 : (0 : ℚ) ≤ e - b.start := by simpa using hle
  have h2 : (0 : ℚ) ≤ 3600 := by norm_num
  simpa using div_nonneg h1 h2

/-- C6: for every task whose attempts all have non-negative durations and
    priced machine types, inserting an additional wasted preempted attempt
    anywhere before the final attempt never decreases est_cost or
    total_time_h: the new attempt adds its own non-negative duration and its
    own non-negative billed cost to the sums. -/
theorem taskStats_insert_preempted_monotone (fmt : ℚ → String)
    (pre post : List Attempt) (a : Attempt)
    (hpost : post ≠ []) (hwasted : a.preemptible = true)
    (hprice : ∀ b ∈ pre ++ a :: post,
      (get_vm_cost (lastSlashComponent b.machineType) b.preemptible).isSome)
    (hdur : ∀ b ∈ pre ++ a :: post, ∃ e, b.endTime = some e ∧ b.start ≤ e) :
    ∃ row row', taskStats fmt (pre ++ post) = Except.ok row
      ∧ taskStats fmt (pre ++ a :: post) = Except.ok row'
      ∧ (∃ q q', row.total_time_h = some q ∧ row'.total_time_h = some q'
          ∧ q ≤ q')
      ∧ (∃ c c', row.est_cost = some c ∧ row'.est_cost = some c'
          ∧ c ≤ c') := by
  have hsub : ∀ b ∈ pre ++ post, b ∈ pre ++ a :: post := by
    intro b hb
    rcases List.mem_append.mp hb with h | h
    · exact List.mem_append.mpr (Or.inl h)
    · exact List.mem_append.mpr (Or.inr (List.mem_cons_of_mem a h))
  have hamem : a ∈ pre ++ a :: post :=
    List.mem_append.mpr (Or.inr (List.mem_cons_self a post))
  obtain ⟨c0, ctl, hc⟩ : ∃ c0 ctl, pre ++ post = c0 :: ctl := by
    cases hpp : pre ++ post with
    | nil =>
      exact absurd (List.append_eq_nil.mp hpp).2 hpost
    | cons c0 ctl => exact ⟨c0, ctl, rfl⟩
  obtain ⟨d0, dtl, hd⟩ : ∃ d0 dtl, pre ++ a :: post = d0 :: dtl := by
    cases hpp : pre ++ a :: post with
    | nil => exact absurd (List.append_eq_nil.mp hpp).2 (by simp)
    | cons d0 dtl => exact ⟨d0, dtl, rfl⟩
  have hprice1 : ∀ b ∈ c0 :: ctl,
      (get_vm_cost (lastSlashComponent b.machineType) b.preemptible).isSome :=
    fun b hb => hprice b (hsub b (hc ▸ hb))
  have hdur1 : ∀ b ∈ c0 :: ctl, ∃ e, b.endTime = some e :=
    fun b hb => ⟨(hdur b (hsub b (hc ▸ hb))).choose,
      (hdur b (hsub b (hc ▸ hb))).choose_spec.1⟩
  have hprice2 : ∀ b ∈ d0 :: dtl,
      (get_vm_cost (lastSlashComponent b.machineType) b.preemptible).isSome :=
    fun b hb => hprice b (hd ▸ hb)
  have hdur2 : ∀ b ∈ d0 :: dtl, ∃ e, b.endTime = some e :=
    fun b hb => ⟨(hdur b (hd ▸ hb)).choose, (hdur b (hd ▸ hb)).choose_spec.1⟩
  obtain ⟨row, hrow, htot, hcost⟩ := taskStats_sums fmt c0 ctl hprice1 hdur1
  obtain ⟨row', hrow', htot', hcost'⟩ := taskStats_sums fmt d0 dtl hprice2 hdur2
  rw [← hc] at hrow htot hcost
  rw [← hd] at hrow' htot' hcost'
  obtain ⟨ea, hea, hlea⟩ := hdur a hamem
  have hda : 0 ≤ durH a := durH_nonneg a ea hea hlea
  have hra : 0 ≤ rateOf a := rateOf_nonneg a (hprice a hamem)
  have hsum1 : ((pre ++ a :: post).map durH).sum
      = ((pre ++ post).map durH).sum + durH a := by
    simp [List.map_append, List.sum_append]
    ring
  have hsum2 : ((pre ++ a :: post).map (fun b => rateOf b * durH b)).sum
      = ((pre ++ post).map (fun b => rateOf b * durH b)).sum
        + rateOf a * durH a := by
    simp [List.map_append, List.sum_append]
    ring
  refine ⟨row, row', hrow, hrow', ?_, ?_⟩
  · refine ⟨_, _, htot, htot', ?_⟩
    rw [hsum1]
    have : 0 ≤ durH a := hda
    linarith
  · refine ⟨_, _, hcost, hcost', ?_⟩
    rw [hsum2]
    have : 0 ≤ rateOf a * durH a := mul_nonneg hra hda
    linarith

/-- C6 witness: inserting the wasted preempted 0.4 h attempt before the
    final Done attempt. -/
theorem taskStats_insert_preempted_monotone_witness :
    ∃ row row', taskStats fmt0 ([] ++ [a3C5]) = Except.ok row
      ∧ taskStats fmt0 ([] ++ a1C5 :: [a3C5]) = Except.ok row'
      ∧ (∃ q q', row.total_time_h = some q ∧ row'.total_time_h = some q'
          ∧ q ≤ q')
      ∧ (∃ c c', row.est_cost = some c ∧ row'.est_cost = some c'
          ∧ c ≤ c') :=
  taskStats_insert_preempted_monotone fmt0 [] [a3C5] a1C5 (by simp) rfl
    (by with_unfolding_all decide)
    (by
      intro b hb
      simp only [List.nil_append, List.mem_cons, List.not_mem_nil,
        or_false] at hb
      rcases hb with hb | hb <;> subst hb
      · exact ⟨1440, rfl, by with_unfolding_all decide⟩
      · exact ⟨7320, rfl, by with_unfolding_all decide⟩)

theorem lastOf_of_append (pre : List Attempt) (x : Attempt) :
    ∀ (c0 : Attempt) (ctl : List Attempt),
      pre ++ [x] = c0 :: ctl → lastOf c0 ctl = x := by
  induction pre with
  | nil =>
    intro c0 ctl h
    injection h with h1 h2
    subst h1
    subst h2
    rfl
  | cons p ptl ih =>
    intro c0 ctl h
    rw [List.cons_append] at h
    injection h with h1 h2
    subst h1
    cases hp2 : ptl ++ [x] with
    | nil => exact absurd (List.append_eq_nil.mp hp2).2 (by simp)
    | cons d0 dtl =>
      rw [hp2] at h2
      subst h2
      exact ih d0 dtl hp2

/-- C10: `workflow_time` is total: a record lacking an 'end' timestamp gets
    NaN (np.NaN) instead of an exception; consequently, when a task's last
    attempt has no end timestamp (and every machine type is priced so the
    cost comprehension itself does not raise), the aggregated row carries
    NaN time_h, and the NaN propagates through the sums into total_time_h
    and est_cost, with no error. -/
theorem workflow_time_nan_total (fmt : ℚ → String)
    (pre : List Attempt) (lastA : Attempt)
    (hend : lastA.endTime = none)
    (hprice : ∀ b ∈ pre ++ [lastA],
      (get_vm_cost (lastSlashComponent b.machineType) b.preemptible).isSome) :
    (∀ s : ℚ, workflow_time s lastA.endTime = none)
    ∧ ∃ row, taskStats fmt (pre ++ [lastA]) = Except.ok row
      ∧ row.time_h = none ∧ row.total_time_h = none ∧ row.est_cost = none := by
  refine ⟨fun s => by rw [hend]; rfl, ?_⟩
  obtain ⟨c0, ctl, hc⟩ : ∃ c0 ctl, pre ++ [lastA] = c0 :: ctl := by
    cases hpp : pre ++ [lastA] with
    | nil => exact absurd (List.append_eq_nil.mp hpp).2 (by simp)
    | cons c0 ctl => exact ⟨c0, ctl, rfl⟩
  have hlastmem : lastA ∈ c0 :: ctl := by
    rw [← hc]
    exact List.mem_append.mpr (Or.inr (List.mem_cons_self lastA []))
  have hprice1 : ∀ b ∈ c0 :: ctl,
      (get_vm_cost (lastSlashComponent b.machineType) b.preemptible).isSome :=
    fun b hb => hprice b (hc ▸ hb)
  obtain ⟨row, hrow, ht, htot, hcost⟩ := taskStats_ok_fields fmt c0 ctl hprice1
  have hlast : lastOf c0 ctl = lastA := lastOf_of_append pre lastA c0 ctl hc
  rw [← hc] at hrow
  refine ⟨row, hrow, ?_, ?_, ?_⟩
  · rw [ht, hlast, hend]
    rfl
  · rw [htot]
    have hval : fdivc (workflow_time lastA.start lastA.endTime) 3600 = none := by
      rw [hend]; rfl
    have hmem : (none : Flo) ∈ (c0 :: ctl).map
        (fun a => fdivc (workflow_time a.start a.endTime) 3600) :=
      List.mem_map.mpr ⟨lastA, hlastmem, hval⟩
    unfold fsum
    exact foldl_fadd_none_mem _ _ hmem
  · rw [hcost]
    have hterm : costTerm lastA = none := by
      cases hv : get_vm_cost (lastSlashComponent lastA.machineType)
          lastA.preemptible with
      | none => simp [costTerm, hv]
      | some r => simp [costTerm, hv, hend, workflow_time, fdivc, fmul]
    have hmem : (none : Flo) ∈ (c0 :: ctl).map costTerm :=
      List.mem_map.mpr ⟨lastA, hlastmem, hterm⟩
    unfold fsum
    exact foldl_fadd_none_mem _ _ hmem

def aRun : Attempt :=
  { start := 100, endTime := none, executionStatus := "Running",
    jobId := "r1", stderr := "", preemptible := true, machineType := ns4 }

/-- C10 witness: a single-attempt task still running (no end timestamp) on a
    priced machine. -/
theorem workflow_time_nan_total_witness :
    (∀ s : ℚ, workflow_time s aRun.endTime = none)
    ∧ ∃ row, taskStats fmt0 ([] ++ [aRun]) = Except.ok row
      ∧ row.time_h = none ∧ row.total_time_h = none ∧ row.est_cost = none :=
  workflow_time_nan_total fmt0 [] aRun rfl (by with_unfolding_all decide)
